import Mathlib

/-!
Verification of the BER encoder of pyasn1 (pyasn1/codec/ber/encoder.py)
against its natural-language specification.

The Python source is shallowly embedded: Python arbitrary-precision
integers become Int/Nat; Python `x >> k` on Int is floor division, which
for the positive divisors used here (256, 128) coincides with Lean's
Int division `/` (euclidean, remainder in [0, divisor)); `x & 0xff` is
`x % 256` in the same way; octet strings become `List Nat` with octets
in [0, 256); the integer flags 0/1 used for `defMode` and `isConstructed`
become `Bool`; raised exceptions become `Except EncError`.
-/

set_option maxRecDepth 2000

namespace PyAsn1

/-- Error kinds raised by the encoder (encoder.py raises Error/PyAsn1Error
with message strings; the message identity is modelled by a constructor). -/
inductive EncError where
  | shortOID : EncError
  | initialSubIdOverflow : EncError
  | subIdOverflow : EncError
  | lengthOctetsOverflow : EncError
  | realExponentOverflow : EncError
  | prohibitedRealBase : EncError
  | noEncoder : EncError
  | sizeSpecViolation : EncError
deriving DecidableEq

/-- A tag triple, as returned by `t.asTuple()` in encoder.py line 13:
(tagClass, tagFormat, tagId). -/
structure Tag where
  tagClass : Nat
  tagFormat : Nat
  tagId : Nat
deriving DecidableEq

/-- pyasn1.type.tag.tagFormatConstructed = 0x20. -/
def tagFormatConstructed : Nat := 32

/-- The base-128 continuation loop
`s = int2oct(0x80|(n&0x7f)) + s; n = n >> 7` (while n nonzero).
This loop body appears verbatim twice in encoder.py: in
AbstractItemEncoder.encodeTag (lines 22-24) and in
ObjectIdentifierEncoder.encodeValue (lines 182-184). -/
def base128Loop (n : Nat) (s : List Nat) : List Nat :=
  if h : n = 0 then s
  else base128Loop (n >>> 7) ((128 ||| (n &&& 127)) :: s)
termination_by n
decreasing_by
  rw [Nat.shiftRight_eq_div_pow]
  exact Nat.div_lt_self (Nat.pos_of_ne_zero h) (by norm_num)

/-- AbstractItemEncoder.encodeTag (encoder.py lines 12-25). -/
def AbstractItemEncoder.encodeTag (t : Tag) (isConstructed : Bool) : List Nat :=
  let v := t.tagClass ||| t.tagFormat
  let v := if isConstructed then v ||| tagFormatConstructed else v
  if t.tagId < 31 then [v ||| t.tagId]
  else (v ||| 31) :: base128Loop (t.tagId >>> 7) [t.tagId &&& 127]

/-- The base-256 big-endian loop
`substrate = int2oct(n&0xff) + substrate; n = n >> 8` (while n nonzero).
This loop body appears verbatim twice in encoder.py: in
AbstractItemEncoder.encodeLength (lines 34-36) and as the mantissa loop
of RealEncoder.encodeValue (lines 229-231). -/
def lenOctetsLoop (n : Nat) (substrate : List Nat) : List Nat :=
  if h : n = 0 then substrate
  else lenOctetsLoop (n >>> 8) ((n &&& 255) :: substrate)
termination_by n
decreasing_by
  rw [Nat.shiftRight_eq_div_pow]
  exact Nat.div_lt_self (Nat.pos_of_ne_zero h) (by norm_num)

/-- AbstractItemEncoder.encodeLength (encoder.py lines 27-40).
`supportIndefLenMode` is the class attribute of the concrete codec. -/
def AbstractItemEncoder.encodeLength (supportIndefLenMode : Bool) (length : Nat)
    (defMode : Bool) : Except EncError (List Nat) :=
  if ¬defMode ∧ supportIndefLenMode then .ok [128]
  else if length < 128 then .ok [length]
  else
    let substrate := lenOctetsLoop length []
    if substrate.length > 126 then .error .lengthOctetsOverflow
    else .ok ((128 ||| substrate.length) :: substrate)

/-- The two's-complement octet loop of IntegerEncoder.encodeValue
(encoder.py lines 85-91): repeatedly insert `value & 0xff` at the front,
stopping once `value` is 0 or -1; also returns the final `value`
(0 for a non-negative start, -1 for a negative one), which line 92 tests. -/
def intOctetsLoop (value : Int) : List Nat × Int :=
  if h : value = 0 ∨ value = -1 then ([(value % 256).toNat], value)
  else
    let r := intOctetsLoop (value / 256)
    (r.1 ++ [(value % 256).toNat], r.2)
termination_by value.natAbs
decreasing_by
  omega

/-- The leading-octet trimming loop of IntegerEncoder.encodeValue
(encoder.py lines 94-97). -/
def trimLoop : List Nat → List Nat
  | a :: b :: rest =>
    if (a = 0 ∧ b &&& 128 = 0) ∨ (a = 255 ∧ b &&& 128 ≠ 0) then trimLoop (b :: rest)
    else a :: b :: rest
  | l => l

/-- IntegerEncoder.encodeValue (encoder.py lines 84-98). The returned flag
is the is-constructed flag (`0` in the source, hence `false`). -/
def IntegerEncoder.encodeValue (value : Int) : List Nat × Bool :=
  let r := intOctetsLoop value
  let octets := if r.2 = 0 ∧ r.1.headI &&& 128 ≠ 0 then 0 :: r.1 else r.1
  (trimLoop octets, false)

/-- Value of a big-endian base-256 octet list (most significant first). -/
def beVal (l : List Nat) : Nat := l.foldl (fun acc o => acc * 256 + o) 0

/-- Value of a base-128 big-endian octet list, ignoring the continuation
(high) bit of every octet. -/
def base128Val (l : List Nat) : Nat := l.foldl (fun acc o => acc * 128 + o % 128) 0

/-- Value of a nonempty octet list read as a big-endian two's-complement
integer: the usual base-256 value, minus 2^(8n) when the sign bit of the
top octet is set. -/
def twosComplementVal (l : List Nat) : Int :=
  if 128 ≤ l.headI then (beVal l : Int) - (256 : Int) ^ l.length else (beVal l : Int)

/-! ### Arithmetic helper lemmas -/

lemma and_255_eq_mod (x : Nat) : x &&& 255 = x % 256 := by
  simpa using Nat.and_pow_two_sub_one_eq_mod x 8

lemma and_127_eq_mod (x : Nat) : x &&& 127 = x % 128 := by
  simpa using Nat.and_pow_two_sub_one_eq_mod x 7

lemma or_128_eq_add {x : Nat} (h : x < 128) : 128 ||| x = 128 + x := by
  have h2 : ∀ y : Nat, y < 128 → 128 ||| y = 128 + y := by decide
  exact h2 x h

lemma and_128_ne_zero_iff {x : Nat} (h : x < 256) : x &&& 128 ≠ 0 ↔ 128 ≤ x := by
  have h2 : ∀ y : Nat, y < 256 → (y &&& 128 ≠ 0 ↔ 128 ≤ y) := by decide
  exact h2 x h

lemma shiftRight_7_eq_div (x : Nat) : x >>> 7 = x / 128 := by
  rw [Nat.shiftRight_eq_div_pow]

lemma shiftRight_8_eq_div (x : Nat) : x >>> 8 = x / 256 := by
  rw [Nat.shiftRight_eq_div_pow]

/-! ### beVal lemmas -/

lemma foldl_beVal_init (t : List Nat) :
    ∀ c : Nat, t.foldl (fun acc o => acc * 256 + o) c = c * 256 ^ t.length + beVal t := by
  induction t with
  | nil => intro c; simp [beVal]
  | cons x xs ih =>
    intro c
    have hx : beVal (x :: xs) = x * 256 ^ xs.length + beVal xs := by
      show List.foldl _ (0 * 256 + x) xs = _
      rw [ih (0 * 256 + x)]; ring
    show List.foldl _ (c * 256 + x) xs = _
    rw [ih (c * 256 + x), hx]
    simp [List.length_cons]
    ring

lemma beVal_cons (a : Nat) (t : List Nat) :
    beVal (a :: t) = a * 256 ^ t.length + beVal t := by
  show List.foldl _ (0 * 256 + a) t = _
  rw [foldl_beVal_init t (0 * 256 + a)]; ring

lemma beVal_append_singleton (l : List Nat) (o : Nat) :
    beVal (l ++ [o]) = beVal l * 256 + o := by
  unfold beVal
  rw [List.foldl_append]
  rfl

lemma beVal_lt (l : List Nat) (h : ∀ o ∈ l, o < 256) : beVal l < 256 ^ l.length := by
  induction l with
  | nil => simp [beVal]
  | cons a t ih =>
    rw [beVal_cons]
    have ha : a < 256 := h a (by simp)
    have ht : beVal t < 256 ^ t.length := ih (fun o ho => h o (by simp [ho]))
    have : a * 256 ^ t.length + beVal t < (a + 1) * 256 ^ t.length := by nlinarith
    calc a * 256 ^ t.length + beVal t < (a + 1) * 256 ^ t.length := this
    _ ≤ 256 * 256 ^ t.length := by
        have : a + 1 ≤ 256 := ha
        exact Nat.mul_le_mul_right _ this
    _ = 256 ^ (t.length + 1) := by ring
    _ = 256 ^ (a :: t).length := by simp

/-! ### base128Loop lemmas -/

lemma base128Loop_append (n : Nat) :
    ∀ s : List Nat, base128Loop n s = base128Loop n [] ++ s := by
  intro s
  by_cases h : n = 0
  · subst h
    simp [base128Loop]
  · conv_lhs => rw [base128Loop]
    simp only [h, dite_false]
    rw [base128Loop_append (n >>> 7) ((128 ||| (n &&& 127)) :: s)]
    conv_rhs => rw [base128Loop]
    simp only [h, dite_false]
    rw [base128Loop_append (n >>> 7) [128 ||| (n &&& 127)]]
    simp
termination_by n
decreasing_by
  all_goals
    rw [Nat.shiftRight_eq_div_pow]
    exact Nat.div_lt_self (Nat.pos_of_ne_zero h) (by norm_num)

lemma base128Loop_mem (n : Nat) :
    ∀ o ∈ base128Loop n [], 128 ≤ o ∧ o < 256 := by
  by_cases h : n = 0
  · subst h; rw [base128Loop]; simp
  · rw [base128Loop]
    simp only [h, dite_false]
    rw [base128Loop_append]
    intro o ho
    rcases List.mem_append.mp ho with hl | hr
    · exact base128Loop_mem (n >>> 7) o hl
    · have : o = 128 ||| (n &&& 127) := by simpa using hr
      subst this
      have h127 : n &&& 127 < 128 := by
        rw [and_127_eq_mod]; omega
      rw [or_128_eq_add h127]
      omega
termination_by n
decreasing_by
  all_goals
    rw [Nat.shiftRight_eq_div_pow]
    exact Nat.div_lt_self (Nat.pos_of_ne_zero h) (by norm_num)

lemma base128Loop_foldl (n : Nat) :
    ∀ c : Nat, (base128Loop n []).foldl (fun acc o => acc * 128 + o % 128) c =
      c * 128 ^ (base128Loop n []).length + n := by
  intro c
  by_cases h : n = 0
  · subst h; rw [base128Loop]; simp
  · conv_lhs => rw [base128Loop]
    conv_rhs => rw [base128Loop]
    simp only [h, dite_false]
    rw [base128Loop_append]
    rw [List.foldl_append, List.length_append]
    rw [base128Loop_foldl (n >>> 7) c]
    have h127 : n &&& 127 < 128 := by rw [and_127_eq_mod]; omega
    have hoct : (128 ||| (n &&& 127)) % 128 = n % 128 := by
      rw [or_128_eq_add h127, and_127_eq_mod]
      omega
    simp only [List.foldl_cons, List.foldl_nil, List.length_cons, List.length_nil]
    rw [hoct, shiftRight_7_eq_div]
    rw [pow_succ]
    have hdm : n / 128 * 128 + n % 128 = n := by omega
    linarith [hdm]
termination_by n
decreasing_by
  all_goals
    rw [Nat.shiftRight_eq_div_pow]
    exact Nat.div_lt_self (Nat.pos_of_ne_zero h) (by norm_num)

/-! ### intOctetsLoop invariants -/

lemma headI_append_left {l l2 : List Nat} (h : l ≠ []) : (l ++ l2).headI = l.headI := by
  cases l with
  | nil => exact absurd rfl h
  | cons a t => rfl

lemma intOctetsLoop_spec (v : Int) :
    (∀ o ∈ (intOctetsLoop v).1, o < 256) ∧
    (intOctetsLoop v).1 ≠ [] ∧
    (intOctetsLoop v).2 = (if 0 ≤ v then 0 else -1) ∧
    (intOctetsLoop v).1.headI = (if 0 ≤ v then 0 else 255) ∧
    (beVal (intOctetsLoop v).1 : Int) + (intOctetsLoop v).2 * 256 ^ (intOctetsLoop v).1.length = v := by
  by_cases h : v = 0 ∨ v = -1
  · have hunf : intOctetsLoop v = ([(v % 256).toNat], v) := by
      rw [intOctetsLoop]
      simp [h]
    rcases h with h | h <;> subst h <;> rw [hunf] <;> norm_num [beVal] <;> decide
  · obtain ⟨IH1, IH2, IH3, IH4, IH5⟩ := intOctetsLoop_spec (v / 256)
    rw [intOctetsLoop]
    simp only [h, dite_false]
    have hmem : ∀ o ∈ (intOctetsLoop (v / 256)).1 ++ [(v % 256).toNat], o < 256 := by
      intro o ho
      rcases List.mem_append.mp ho with hl | hr
      · exact IH1 o hl
      · have : o = (v % 256).toNat := by simpa using hr
        omega
    refine ⟨hmem, by simp, ?_, ?_, ?_⟩
    · by_cases hv : 0 ≤ v
      · rw [if_pos (show (0:Int) ≤ v / 256 by omega)] at IH3
        rw [if_pos hv]
        exact IH3
      · rw [if_neg (show ¬ (0:Int) ≤ v / 256 by omega)] at IH3
        rw [if_neg hv]
        exact IH3
    · rw [headI_append_left IH2]
      by_cases hv : 0 ≤ v
      · rw [if_pos (show (0:Int) ≤ v / 256 by omega)] at IH4
        rw [if_pos hv]
        exact IH4
      · rw [if_neg (show ¬ (0:Int) ≤ v / 256 by omega)] at IH4
        rw [if_neg hv]
        exact IH4
    · rw [beVal_append_singleton, List.length_append]
      simp only [List.length_cons, List.length_nil]
      by_cases hv : 0 ≤ v
      · rw [if_pos (show (0:Int) ≤ v / 256 by omega)] at IH3
        rw [IH3] at IH5 ⊢
        push_cast
        push_cast at IH5
        omega
      · rw [if_neg (show ¬ (0:Int) ≤ v / 256 by omega)] at IH3
        rw [IH3] at IH5 ⊢
        rw [pow_succ]
        push_cast
        push_cast at IH5
        generalize hP : ((256:Int) ^ (intOctetsLoop (v / 256)).1.length) = P at IH5 ⊢
        omega
termination_by v.natAbs
decreasing_by
  all_goals omega

/-! ### trimLoop invariants -/

lemma and_128_eq_zero_iff {x : Nat} (h : x < 256) : x &&& 128 = 0 ↔ x < 128 := by
  have h2 : ∀ y : Nat, y < 256 → (y &&& 128 = 0 ↔ y < 128) := by decide
  exact h2 x h

lemma trimLoop_mem (l : List Nat) (h : ∀ o ∈ l, o < 256) : ∀ o ∈ trimLoop l, o < 256 := by
  induction l with
  | nil => simpa [trimLoop] using h
  | cons a rest ih =>
    cases rest with
    | nil => simpa [trimLoop] using h
    | cons b t =>
      rw [trimLoop]
      split
      · exact ih (fun o ho => h o (by simp [List.mem_cons] at ho ⊢; tauto))
      · exact h

lemma trimLoop_ne_nil (l : List Nat) (h : l ≠ []) : trimLoop l ≠ [] := by
  induction l with
  | nil => exact absurd rfl h
  | cons a rest ih =>
    cases rest with
    | nil => simp [trimLoop]
    | cons b t =>
      rw [trimLoop]
      split
      · exact ih (by simp)
      · simp

lemma trimLoop_minimal (l : List Nat) :
    ∀ a b t, trimLoop l = a :: b :: t →
      ¬(a = 0 ∧ b &&& 128 = 0) ∧ ¬(a = 255 ∧ b &&& 128 ≠ 0) := by
  induction l with
  | nil => intro a b t hl; simp [trimLoop] at hl
  | cons x rest ih =>
    cases rest with
    | nil => intro a b t hl; simp [trimLoop] at hl
    | cons y s =>
      intro a b t hl
      rw [trimLoop] at hl
      by_cases hc : (x = 0 ∧ y &&& 128 = 0) ∨ (x = 255 ∧ y &&& 128 ≠ 0)
      · rw [if_pos hc] at hl
        exact ih a b t hl
      · rw [if_neg hc] at hl
        simp only [List.cons.injEq] at hl
        obtain ⟨rfl, rfl, rfl⟩ := hl
        exact ⟨fun hk => hc (Or.inl hk), fun hk => hc (Or.inr hk)⟩

lemma trimLoop_twosVal (l : List Nat) (h : ∀ o ∈ l, o < 256) :
    twosComplementVal (trimLoop l) = twosComplementVal l := by
  induction l with
  | nil => rfl
  | cons a rest ih =>
    cases rest with
    | nil => rfl
    | cons b t =>
      rw [trimLoop]
      have hb : b < 256 := h b (by simp)
      split
      · rename_i hc
        have htail := ih (fun o ho => h o (by simp [List.mem_cons] at ho ⊢; tauto))
        rw [htail]
        rcases hc with ⟨rfl, hb128⟩ | ⟨rfl, hb128⟩
        · -- leading 0x00 with next high bit clear
          have hblt : b < 128 := (and_128_eq_zero_iff hb).mp hb128
          unfold twosComplementVal
          simp only [List.headI]
          rw [if_neg (by omega), if_neg (by omega)]
          rw [show beVal (0 :: b :: t) = 0 * 256 ^ (b :: t).length + beVal (b :: t) from
            beVal_cons 0 (b :: t)]
          push_cast
          ring
        · -- leading 0xFF with next high bit set
          have hbge : 128 ≤ b := by
            by_contra hlt
            exact hb128 ((and_128_eq_zero_iff hb).mpr (by omega))
          unfold twosComplementVal
          simp only [List.headI]
          rw [if_pos (by omega), if_pos (by omega)]
          rw [show beVal (255 :: b :: t) = 255 * 256 ^ (b :: t).length + beVal (b :: t) from
            beVal_cons 255 (b :: t)]
          simp only [List.length_cons]
          push_cast
          have e1 : (256 : Int) ^ (t.length + 1) = 256 ^ t.length * 256 := by ring
          have e2 : (256 : Int) ^ (t.length + 1 + 1) = 256 ^ t.length * 65536 := by ring
          rw [e1, e2]
          ring
      · rfl

/-! ### Two's-complement range lemmas -/

lemma twosVal_bounds (a : Nat) (t : List Nat) (h : ∀ o ∈ a :: t, o < 256) :
    -(128 * (256 : Int) ^ t.length) ≤ twosComplementVal (a :: t) ∧
    twosComplementVal (a :: t) < 128 * (256 : Int) ^ t.length := by
  have ha : a < 256 := h a (by simp)
  have ht : beVal t < 256 ^ t.length := beVal_lt t (fun o ho => h o (by simp [ho]))
  have htnn : 0 ≤ (beVal t : Int) := by positivity
  have hpow : (0 : Int) < 256 ^ t.length := by positivity
  have h2 : (beVal t : Int) < 256 ^ t.length := by exact_mod_cast ht
  unfold twosComplementVal
  simp only [List.headI, List.length_cons]
  rw [beVal_cons]
  have e1 : (256 : Int) ^ (t.length + 1) = 256 ^ t.length * 256 := by ring
  by_cases hs : 128 ≤ a
  · rw [if_pos hs, e1]
    push_cast
    have ha2 : (a : Int) ≤ 255 := by omega
    have ha3 : (128 : Int) ≤ (a : Int) := by omega
    constructor
    · nlinarith [mul_le_mul_of_nonneg_right ha3 hpow.le]
    · nlinarith [mul_le_mul_of_nonneg_right ha2 hpow.le]
  · rw [if_neg hs]
    push_cast
    have ha2 : (a : Int) ≤ 127 := by omega
    have ha0 : (0 : Int) ≤ (a : Int) := by positivity
    constructor
    · nlinarith [mul_le_mul_of_nonneg_right ha0 hpow.le]
    · nlinarith [mul_le_mul_of_nonneg_right ha2 hpow.le]

lemma twosVal_nofit (a b : Nat) (t : List Nat) (h : ∀ o ∈ a :: b :: t, o < 256)
    (hmin : ¬(a = 0 ∧ b &&& 128 = 0) ∧ ¬(a = 255 ∧ b &&& 128 ≠ 0)) :
    twosComplementVal (a :: b :: t) < -(128 * (256 : Int) ^ t.length) ∨
    128 * (256 : Int) ^ t.length ≤ twosComplementVal (a :: b :: t) := by
  have ha : a < 256 := h a (by simp)
  have hb : b < 256 := h b (by simp)
  have ht : beVal t < 256 ^ t.length := beVal_lt t (fun o ho => h o (by simp [ho]))
  have htnn : 0 ≤ (beVal t : Int) := by positivity
  have hpow : (0 : Int) < 256 ^ t.length := by positivity
  have h2 : (beVal t : Int) < 256 ^ t.length := by exact_mod_cast ht
  unfold twosComplementVal
  simp only [List.headI, List.length_cons]
  rw [show beVal (a :: b :: t) = a * 256 ^ (b :: t).length + beVal (b :: t) from
    beVal_cons a (b :: t), beVal_cons b t]
  simp only [List.length_cons]
  have e1 : (256 : Int) ^ (t.length + 1) = 256 ^ t.length * 256 := by ring
  have e2 : (256 : Int) ^ (t.length + 1 + 1) = 256 ^ t.length * 65536 := by ring
  by_cases hs : 128 ≤ a
  · rw [if_pos hs]
    left
    push_cast
    rw [e1, e2]
    by_cases ha255 : a = 255
    · subst ha255
      push_cast
      have hblt : b < 128 := by
        by_contra hge
        exact hmin.2 ⟨rfl, by
          intro hz
          exact absurd ((and_128_eq_zero_iff hb).mp hz) (by omega)⟩
      have hb2 : (b : Int) ≤ 127 := by omega
      nlinarith [mul_le_mul_of_nonneg_right hb2 hpow.le]
    · have ha2 : (a : Int) ≤ 254 := by omega
      have hb2 : (b : Int) ≤ 255 := by omega
      nlinarith [mul_le_mul_of_nonneg_right ha2 hpow.le,
        mul_le_mul_of_nonneg_right hb2 hpow.le]
  · rw [if_neg hs]
    right
    push_cast
    rw [e1]
    by_cases ha0 : a = 0
    · subst ha0
      push_cast
      have hbge : 128 ≤ b := by
        by_contra hlt
        exact hmin.1 ⟨rfl, (and_128_eq_zero_iff hb).mpr (by omega)⟩
      have hb2 : (128 : Int) ≤ (b : Int) := by omega
      nlinarith [mul_le_mul_of_nonneg_right hb2 hpow.le]
    · have ha1 : (1 : Int) ≤ (a : Int) := by
        have : 1 ≤ a := Nat.pos_of_ne_zero ha0
        omega
      have hb0 : (0 : Int) ≤ (b : Int) := by positivity
      nlinarith [mul_le_mul_of_nonneg_right ha1 hpow.le,
        mul_le_mul_of_nonneg_right hb0 hpow.le]

/-! ### Claim C1 -/

/-- C1: For every integer n, IntegerEncoder.encodeValue returns the shortest
two's-complement big-endian octet sequence representing n: the top octet is
not 0x00 when bit 7 of the next octet is 0, and not 0xFF when bit 7 of the
next octet is 1; zero encodes as the single octet 0x00; and the returned
is-constructed flag is 0 (false). -/
theorem integerEncoder_encodeValue_minimal (n : Int) :
    (IntegerEncoder.encodeValue n).2 = false ∧
    (IntegerEncoder.encodeValue n).1 ≠ [] ∧
    (∀ o ∈ (IntegerEncoder.encodeValue n).1, o < 256) ∧
    twosComplementVal (IntegerEncoder.encodeValue n).1 = n ∧
    (∀ l : List Nat, l ≠ [] → (∀ o ∈ l, o < 256) → twosComplementVal l = n →
      (IntegerEncoder.encodeValue n).1.length ≤ l.length) ∧
    (∀ a b t, (IntegerEncoder.encodeValue n).1 = a :: b :: t →
      ¬(a = 0 ∧ b &&& 128 = 0) ∧ ¬(a = 255 ∧ b &&& 128 ≠ 0)) ∧
    (n = 0 → (IntegerEncoder.encodeValue n).1 = [0]) := by
  obtain ⟨S1, S2, S3, S4, S5⟩ := intOctetsLoop_spec n
  have hoct : (if (intOctetsLoop n).2 = 0 ∧ (intOctetsLoop n).1.headI &&& 128 ≠ 0 then
      0 :: (intOctetsLoop n).1 else (intOctetsLoop n).1) = (intOctetsLoop n).1 := by
    by_cases hv : 0 ≤ n
    · rw [if_neg]
      rintro ⟨hfin, hhead⟩
      rw [S4, if_pos hv] at hhead
      exact hhead (by decide)
    · rw [if_neg]
      rintro ⟨hfin, hhead⟩
      rw [S3, if_neg hv] at hfin
      exact absurd hfin (by decide)
  have henc : IntegerEncoder.encodeValue n = (trimLoop (intOctetsLoop n).1, false) := by
    simp only [IntegerEncoder.encodeValue]
    rw [hoct]
  have hval : twosComplementVal (intOctetsLoop n).1 = n := by
    unfold twosComplementVal
    by_cases hv : 0 ≤ n
    · rw [S4, if_pos hv, if_neg (by norm_num)]
      rw [S3, if_pos hv] at S5
      simpa using S5
    · rw [S4, if_neg hv, if_pos (by norm_num)]
      rw [S3, if_neg hv] at S5
      linarith [S5]
  refine ⟨by rw [henc], ?_, ?_, ?_, ?_, ?_, ?_⟩
  · rw [henc]
    exact trimLoop_ne_nil _ S2
  · rw [henc]
    exact trimLoop_mem _ S1
  · rw [henc]
    simp only
    rw [trimLoop_twosVal _ S1, hval]
  · intro l hne hmem hlval
    rw [henc]
    simp only
    rcases hr : trimLoop (intOctetsLoop n).1 with _ | ⟨a, rest⟩
    · exact absurd hr (trimLoop_ne_nil _ S2)
    rcases rest with _ | ⟨b, t⟩
    · have : 0 < l.length := List.length_pos.mpr hne
      simp only [List.length_cons, List.length_nil]
      omega
    · have hmin := trimLoop_minimal (intOctetsLoop n).1 a b t hr
      have hmem2 : ∀ o ∈ a :: b :: t, o < 256 := by
        rw [← hr]
        exact trimLoop_mem _ S1
      have hnofit := twosVal_nofit a b t hmem2 hmin
      have hval2 : twosComplementVal (a :: b :: t) = n := by
        rw [← hr, trimLoop_twosVal _ S1, hval]
      by_contra hlen
      push_neg at hlen
      rcases l with _ | ⟨c, s⟩
      · exact hne rfl
      have hbounds := twosVal_bounds c s hmem
      rw [hlval] at hbounds
      have hsl : s.length ≤ t.length := by
        simp only [List.length_cons] at hlen
        omega
      have hmono : (256 : Int) ^ s.length ≤ 256 ^ t.length :=
        pow_le_pow_right (by norm_num) hsl
      rw [hval2] at hnofit
      rcases hnofit with hlt | hge
      · linarith [hbounds.1]
      · linarith [hbounds.2]
  · intro a b t hab
    rw [henc] at hab
    exact trimLoop_minimal _ a b t hab
  · intro h0
    subst h0
    have hunf0 : intOctetsLoop 0 = ([0], 0) := by
      rw [intOctetsLoop]
      norm_num
    simp only [IntegerEncoder.encodeValue]
    rw [hunf0]
    norm_num [trimLoop]

/-- Witness for C1: concrete evaluations through the theorem at n = -129
(encoded as FF 7F) and at n = 0. -/
theorem integerEncoder_encodeValue_minimal_witness :
    twosComplementVal (IntegerEncoder.encodeValue (-129)).1 = -129 ∧
    (IntegerEncoder.encodeValue (-129)).1.length ≤ 3 ∧
    (IntegerEncoder.encodeValue 0).1 = [0] := by
  refine ⟨(integerEncoder_encodeValue_minimal (-129)).2.2.2.1, ?_,
    (integerEncoder_encodeValue_minimal 0).2.2.2.2.2.2 rfl⟩
  have h3 : twosComplementVal [255, 255, 127] = -129 := by decide
  have := (integerEncoder_encodeValue_minimal (-129)).2.2.2.2.1 [255, 255, 127]
    (by decide) (by decide) h3
  simpa using this

/-! ### Claim C2 -/

lemma tagHead_facts :
    ∀ cls fmt : Nat, (cls = 0 ∨ cls = 64 ∨ cls = 128 ∨ cls = 192) →
    (fmt = 0 ∨ fmt = 32) → ∀ w : Nat, (w = 0 ∨ w = 32) → ∀ i : Nat, i < 32 →
      ((cls ||| fmt ||| w) ||| i) &&& 192 = cls ∧
      ((cls ||| fmt ||| w) ||| i) &&& 32 = (fmt ||| w) &&& 32 ∧
      ((cls ||| fmt ||| w) ||| i) &&& 31 = i := by
  intro cls fmt hc hf w hw
  rcases hc with rfl | rfl | rfl | rfl <;> rcases hf with rfl | rfl <;>
    rcases hw with rfl | rfl <;> decide

lemma tagIdTail_spec (id : Nat) :
    (base128Loop (id >>> 7) [id &&& 127] ≠ []) ∧
    (∀ o ∈ (base128Loop (id >>> 7) [id &&& 127]).dropLast, 128 ≤ o ∧ o < 256) ∧
    (∀ o, (base128Loop (id >>> 7) [id &&& 127]).getLast? = some o → o < 128) ∧
    base128Val (base128Loop (id >>> 7) [id &&& 127]) = id := by
  rw [base128Loop_append]
  refine ⟨by simp, ?_, ?_, ?_⟩
  · rw [List.dropLast_concat]
    exact base128Loop_mem _
  · intro o ho
    rw [List.getLast?_concat] at ho
    have ho2 : o = id &&& 127 := by
      injection ho with ho3
      exact ho3.symm
    subst ho2
    rw [and_127_eq_mod]
    omega
  · unfold base128Val
    rw [List.foldl_append]
    rw [base128Loop_foldl (id >>> 7) 0]
    simp only [List.foldl_cons, List.foldl_nil, Nat.zero_mul, Nat.zero_add]
    rw [and_127_eq_mod, shiftRight_7_eq_div]
    omega

/-- C2 (amended): for every tag with a valid class and format and every
constructed flag, encodeTag emits one leading octet whose high two bits are
the class, whose constructed bit (0x20) is set iff the constructed flag is
set OR the tag's recorded format is constructed (the source ORs the
recorded format into the octet at line 14, so the flag alone does not
determine the bit), and whose low 5 bits are the number when number < 31,
otherwise 0x1F; for number >= 31 it is followed by the base-128 big-endian
octets of the number, all but the last with the high bit set and the last
with the high bit clear. -/
theorem encodeTag_spec (t : Tag) (isC : Bool)
    (hc : t.tagClass = 0 ∨ t.tagClass = 64 ∨ t.tagClass = 128 ∨ t.tagClass = 192)
    (hf : t.tagFormat = 0 ∨ t.tagFormat = 32) :
    ∃ hd tl, AbstractItemEncoder.encodeTag t isC = hd :: tl ∧
      hd &&& 192 = t.tagClass ∧
      (hd &&& 32 = if isC = true ∨ t.tagFormat = 32 then 32 else 0) ∧
      (t.tagId < 31 → hd &&& 31 = t.tagId ∧ tl = []) ∧
      (31 ≤ t.tagId → hd &&& 31 = 31 ∧ tl ≠ [] ∧
        (∀ o ∈ tl.dropLast, 128 ≤ o ∧ o < 256) ∧
        (∀ o, tl.getLast? = some o → o < 128) ∧
        base128Val tl = t.tagId) := by
  obtain ⟨cls, fmt, id⟩ := t
  simp only at hc hf ⊢
  have hV : (if isC then (cls ||| fmt) ||| tagFormatConstructed else cls ||| fmt) =
      (cls ||| fmt) ||| (if isC then 32 else 0) := by
    cases isC <;> simp [tagFormatConstructed]
  have hw : (if isC then (32:Nat) else 0) = 0 ∨ (if isC then (32:Nat) else 0) = 32 := by
    cases isC <;> simp
  have hbit : ((fmt ||| if isC then (32:Nat) else 0) &&& 32) =
      (if isC = true ∨ fmt = 32 then 32 else 0) := by
    rcases hf with rfl | rfl <;> cases isC <;> decide
  by_cases hid : id < 31
  · refine ⟨((cls ||| fmt) ||| (if isC then 32 else 0)) ||| id, [], ?_, ?_, ?_, ?_, ?_⟩
    · simp only [AbstractItemEncoder.encodeTag, if_pos hid]
      rw [hV]
    · exact (tagHead_facts cls fmt hc hf _ hw id (by omega)).1
    · rw [(tagHead_facts cls fmt hc hf _ hw id (by omega)).2.1, hbit]
    · intro h2
      exact ⟨(tagHead_facts cls fmt hc hf _ hw id (by omega)).2.2, rfl⟩
    · intro h2
      omega
  · obtain ⟨T1, T2, T3, T4⟩ := tagIdTail_spec id
    refine ⟨((cls ||| fmt) ||| (if isC then 32 else 0)) ||| 31,
      base128Loop (id >>> 7) [id &&& 127], ?_, ?_, ?_, ?_, ?_⟩
    · simp only [AbstractItemEncoder.encodeTag, if_neg hid]
      rw [hV]
    · exact (tagHead_facts cls fmt hc hf _ hw 31 (by omega)).1
    · rw [(tagHead_facts cls fmt hc hf _ hw 31 (by omega)).2.1, hbit]
    · intro h2
      exact absurd h2 hid
    · intro h2
      exact ⟨(tagHead_facts cls fmt hc hf _ hw 31 (by omega)).2.2, T1, T2, T3, T4⟩

/-- C2 counterexample: for the tag (class 0, recorded format constructed
0x20, number 2) with constructed flag false, the emitted leading octet has
the constructed bit (0x20) set even though the flag is clear; the claim as
stated says the bit is 1 iff the flag is set, so it predicts 0 here. -/
theorem encodeTag_constructed_bit_counterexample :
    (AbstractItemEncoder.encodeTag ⟨0, 32, 2⟩ false).headI &&& 32 = 32 ∧
    ¬((AbstractItemEncoder.encodeTag ⟨0, 32, 2⟩ false).headI &&& 32 = 0) := by
  constructor <;> decide

/-- Witness for C2: instantiation at the tag (APPLICATION, constructed, 40)
with constructed flag true. -/
theorem encodeTag_spec_witness :
    ∃ hd tl, AbstractItemEncoder.encodeTag ⟨64, 32, 40⟩ true = hd :: tl ∧
      hd &&& 192 = 64 ∧
      (hd &&& 32 = if true = true ∨ (32:Nat) = 32 then 32 else 0) ∧
      ((40:Nat) < 31 → hd &&& 31 = 40 ∧ tl = []) ∧
      (31 ≤ (40:Nat) → hd &&& 31 = 31 ∧ tl ≠ [] ∧
        (∀ o ∈ tl.dropLast, 128 ≤ o ∧ o < 256) ∧
        (∀ o, tl.getLast? = some o → o < 128) ∧
        base128Val tl = 40) :=
  encodeTag_spec ⟨64, 32, 40⟩ true (by norm_num) (by norm_num)

/-! ### Claim C3 -/

lemma lenOctetsLoop_append (n : Nat) :
    ∀ s : List Nat, lenOctetsLoop n s = lenOctetsLoop n [] ++ s := by
  intro s
  by_cases h : n = 0
  · subst h
    simp [lenOctetsLoop]
  · conv_lhs => rw [lenOctetsLoop]
    simp only [h, dite_false]
    rw [lenOctetsLoop_append (n >>> 8) ((n &&& 255) :: s)]
    conv_rhs => rw [lenOctetsLoop]
    simp only [h, dite_false]
    rw [lenOctetsLoop_append (n >>> 8) [n &&& 255]]
    simp
termination_by n
decreasing_by
  all_goals
    rw [Nat.shiftRight_eq_div_pow]
    exact Nat.div_lt_self (Nat.pos_of_ne_zero h) (by norm_num)

lemma lenOctetsLoop_mem (n : Nat) :
    ∀ o ∈ lenOctetsLoop n [], o < 256 := by
  by_cases h : n = 0
  · subst h
    rw [lenOctetsLoop]
    simp
  · rw [lenOctetsLoop]
    simp only [h, dite_false]
    rw [lenOctetsLoop_append]
    intro o ho
    rcases List.mem_append.mp ho with hl | hr
    · exact lenOctetsLoop_mem (n >>> 8) o hl
    · have : o = n &&& 255 := by simpa using hr
      subst this
      rw [and_255_eq_mod]
      omega
termination_by n
decreasing_by
  all_goals
    rw [Nat.shiftRight_eq_div_pow]
    exact Nat.div_lt_self (Nat.pos_of_ne_zero h) (by norm_num)

lemma lenOctetsLoop_foldl (n : Nat) :
    ∀ c : Nat, (lenOctetsLoop n []).foldl (fun acc o => acc * 256 + o) c =
      c * 256 ^ (lenOctetsLoop n []).length + n := by
  intro c
  by_cases h : n = 0
  · subst h
    rw [lenOctetsLoop]
    simp
  · conv_lhs => rw [lenOctetsLoop]
    conv_rhs => rw [lenOctetsLoop]
    simp only [h, dite_false]
    rw [lenOctetsLoop_append]
    rw [List.foldl_append, List.length_append]
    rw [lenOctetsLoop_foldl (n >>> 8) c]
    have hoct : n &&& 255 = n % 256 := and_255_eq_mod n
    simp only [List.foldl_cons, List.foldl_nil, List.length_cons, List.length_nil]
    rw [hoct, shiftRight_8_eq_div]
    rw [pow_succ]
    have hdm : n / 256 * 256 + n % 256 = n := by omega
    linarith [hdm]
termination_by n
decreasing_by
  all_goals
    rw [Nat.shiftRight_eq_div_pow]
    exact Nat.div_lt_self (Nat.pos_of_ne_zero h) (by norm_num)

lemma lenOctetsLoop_beVal (n : Nat) : beVal (lenOctetsLoop n []) = n := by
  unfold beVal
  rw [lenOctetsLoop_foldl n 0]
  simp

lemma lenOctetsLoop_length_le (n : Nat) :
    ∀ k : Nat, n < 256 ^ k → (lenOctetsLoop n []).length ≤ k := by
  intro k hk
  by_cases h : n = 0
  · subst h
    rw [lenOctetsLoop]
    simp
  · rw [lenOctetsLoop]
    simp only [h, dite_false]
    rw [lenOctetsLoop_append]
    rw [List.length_append]
    simp only [List.length_cons, List.length_nil]
    cases k with
    | zero =>
      exfalso
      simp at hk
      omega
    | succ k2 =>
      have hdiv : n >>> 8 < 256 ^ k2 := by
        rw [shiftRight_8_eq_div]
        rw [pow_succ] at hk
        omega
      have := lenOctetsLoop_length_le (n >>> 8) k2 hdiv
      omega
termination_by n
decreasing_by
  all_goals
    rw [Nat.shiftRight_eq_div_pow]
    exact Nat.div_lt_self (Nat.pos_of_ne_zero h) (by norm_num)

lemma lenOctetsLoop_length_ge (n : Nat) :
    ∀ k : Nat, 256 ^ k ≤ n → k < (lenOctetsLoop n []).length := by
  intro k hk
  have h : n ≠ 0 := by
    have : (1:Nat) ≤ 256 ^ k := Nat.one_le_pow _ _ (by norm_num)
    omega
  rw [lenOctetsLoop]
  simp only [h, dite_false]
  rw [lenOctetsLoop_append]
  rw [List.length_append]
  simp only [List.length_cons, List.length_nil]
  cases k with
  | zero => omega
  | succ k2 =>
    have hdiv : 256 ^ k2 ≤ n >>> 8 := by
      rw [shiftRight_8_eq_div]
      rw [pow_succ] at hk
      omega
    have := lenOctetsLoop_length_ge (n >>> 8) k2 hdiv
    omega
termination_by n
decreasing_by
  all_goals
    rw [Nat.shiftRight_eq_div_pow]
    exact Nat.div_lt_self (Nat.pos_of_ne_zero h) (by norm_num)

/-- C3: encodeLength returns the single octet 0x80 when indefinite mode is
requested and the codec's supportIndefLenMode flag is true; otherwise the
single octet equal to length when length < 128; otherwise the octet 0x80|k
followed by the length in k big-endian octets with 1 <= k <= 126; and it
raises an error when k would exceed 126 (i.e. length >= 256^126). -/
theorem encodeLength_spec (supportIndef : Bool) (len : Nat) (defMode : Bool) :
    (¬defMode ∧ supportIndef →
       AbstractItemEncoder.encodeLength supportIndef len defMode = .ok [128]) ∧
    ((defMode ∨ ¬supportIndef) → len < 128 →
       AbstractItemEncoder.encodeLength supportIndef len defMode = .ok [len]) ∧
    ((defMode ∨ ¬supportIndef) → 128 ≤ len → len < 256 ^ 126 →
       ∃ t : List Nat, AbstractItemEncoder.encodeLength supportIndef len defMode =
           .ok ((128 ||| t.length) :: t) ∧
         1 ≤ t.length ∧ t.length ≤ 126 ∧ beVal t = len ∧ (∀ o ∈ t, o < 256)) ∧
    ((defMode ∨ ¬supportIndef) → 128 ≤ len → 256 ^ 126 ≤ len →
       AbstractItemEncoder.encodeLength supportIndef len defMode =
         .error .lengthOctetsOverflow) := by
  by_cases hind : ¬(defMode = true) ∧ supportIndef = true
  · have he : AbstractItemEncoder.encodeLength supportIndef len defMode = .ok [128] := by
      simp only [AbstractItemEncoder.encodeLength]
      rw [if_pos hind]
    refine ⟨fun _ => he, ?_, ?_, ?_⟩ <;> intro hp
    · exact absurd hp (by tauto)
    · exact absurd hp (by tauto)
    · exact absurd hp (by tauto)
  · have hne : AbstractItemEncoder.encodeLength supportIndef len defMode =
        (if len < 128 then .ok [len] else
          if (lenOctetsLoop len []).length > 126 then .error .lengthOctetsOverflow
          else .ok ((128 ||| (lenOctetsLoop len []).length) :: lenOctetsLoop len [])) := by
      simp only [AbstractItemEncoder.encodeLength]
      rw [if_neg hind]
    refine ⟨fun hp => absurd hp hind, ?_, ?_, ?_⟩
    · intro _ hlen
      rw [hne, if_pos hlen]
    · intro _ hge hlt
      have hk_le : (lenOctetsLoop len []).length ≤ 126 := lenOctetsLoop_length_le len 126 hlt
      have hk_ge : 0 < (lenOctetsLoop len []).length := by
        have : (256:Nat) ^ 0 ≤ len := by simpa using (by omega : 1 ≤ len)
        exact lenOctetsLoop_length_ge len 0 this
      refine ⟨lenOctetsLoop len [], ?_, by omega, hk_le, lenOctetsLoop_beVal len,
        lenOctetsLoop_mem len⟩
      rw [hne, if_neg (by omega), if_neg (by omega)]
    · intro _ hge hbig
      have hk : 126 < (lenOctetsLoop len []).length := lenOctetsLoop_length_ge len 126 hbig
      rw [hne, if_neg (by omega), if_pos (by omega)]

/-- Witness for C3: the long-definite branch at length 300 in definite mode. -/
theorem encodeLength_spec_witness :
    ∃ t : List Nat, AbstractItemEncoder.encodeLength true 300 true =
        .ok ((128 ||| t.length) :: t) ∧
      1 ≤ t.length ∧ t.length ≤ 126 ∧ beVal t = 300 ∧ (∀ o ∈ t, o < 256) :=
  (encodeLength_spec true 300 true).2.2.1 (Or.inl rfl) (by norm_num)
    (lt_of_lt_of_le (by norm_num : (300:Nat) < 256 ^ 2)
      (Nat.pow_le_pow_right (by norm_num) (by norm_num)))

/-! ### Claim C4 -/

/-- Tag of the eoo.endOfOctets singleton: (UNIVERSAL, PRIMITIVE, 0). -/
def endOfOctetsTag : Tag := ⟨0, 0, 0⟩

/-- AbstractItemEncoder.encode (encoder.py lines 51-65) together with
_encodeEndOfOctets (lines 45-49), parameterized over the result
(substrate, isConstructed) of the concrete codec's encodeValue and over
the recursive dispatcher call used to encode the end-of-octets marker.
Line 57-58: primitive form forces definite mode before the length and the
end-of-octets suffix are computed. -/
def AbstractItemEncoder.encode (supportIndefLenMode : Bool) (tagSet : List Tag)
    (substrate : List Nat) (isConstructed : Bool) (defMode : Bool)
    (encodeEoo : Bool → Except EncError (List Nat)) : Except EncError (List Nat) :=
  match tagSet.getLast? with
  | none => .ok substrate
  | some t =>
    let defMode2 := if isConstructed = false then true else defMode
    match AbstractItemEncoder.encodeLength supportIndefLenMode substrate.length defMode2 with
    | .error e => .error e
    | .ok lenOctets =>
      match (if defMode2 ∨ supportIndefLenMode = false then Except.ok []
             else encodeEoo defMode2) with
      | .error e => .error e
      | .ok eooOctets =>
        .ok (AbstractItemEncoder.encodeTag t isConstructed ++ lenOctets ++ substrate ++ eooOctets)

/-- The dispatcher's encoding of eoo.endOfOctets: its tag set holds the
single tag (0,0,0), EndOfOctetsEncoder.encodeValue (lines 67-69) returns
(null, 0), and EndOfOctetsEncoder inherits supportIndefLenMode = 1.
Since isConstructed = 0 forces definite mode in the frame, the nested
end-of-octets branch is never taken, so a constant dispatcher is passed. -/
def encodeEndOfOctetsFun (defMode : Bool) : Except EncError (List Nat) :=
  AbstractItemEncoder.encode true [endOfOctetsTag] [] false defMode (fun _ => .ok [])

/-- The framing step with the recursive end-of-octets call bound to the
dispatcher's encoding of endOfOctets. -/
def encodeItem (supportIndefLenMode : Bool) (tagSet : List Tag) (substrate : List Nat)
    (isConstructed : Bool) (defMode : Bool) : Except EncError (List Nat) :=
  AbstractItemEncoder.encode supportIndefLenMode tagSet substrate isConstructed defMode
    encodeEndOfOctetsFun

lemma encodeEndOfOctetsFun_eq (defMode : Bool) :
    encodeEndOfOctetsFun defMode = .ok [0, 0] := by
  rfl

lemma encodeLength_ok_indef (s : Bool) (l : Nat) (d : Bool)
    (h : AbstractItemEncoder.encodeLength s l d = .ok [128]) : d = false ∧ s = true := by
  by_cases hind : ¬(d = true) ∧ s = true
  · obtain ⟨hdt, hst⟩ := hind
    exact ⟨by simpa using hdt, hst⟩
  · exfalso
    simp only [AbstractItemEncoder.encodeLength] at h
    rw [if_neg hind] at h
    by_cases hl : l < 128
    · rw [if_pos hl] at h
      simp at h
      omega
    · rw [if_neg hl] at h
      by_cases hk : (lenOctetsLoop l []).length > 126
      · rw [if_pos hk] at h
        simp at h
      · rw [if_neg hk] at h
        simp at h
        obtain ⟨h1, h2⟩ := h
        have hv := lenOctetsLoop_beVal l
        rw [h2] at hv
        simp [beVal] at hv
        omega

/-- C4: if the concrete codec reports primitive form, the emitted frame
uses a definite length and no end-of-contents marker is appended, even
when the caller requested indefinite mode; and whenever the indefinite
length octet 0x80 is emitted, the frame is constructed and is terminated
by exactly one EOC marker (octets 00 00) at its own nesting level. -/
theorem encode_frame_invariants (supportIndef : Bool) (tagSet : List Tag) (t : Tag)
    (substrate : List Nat) (isC defMode : Bool) (out : List Nat)
    (ht : tagSet.getLast? = some t)
    (hout : encodeItem supportIndef tagSet substrate isC defMode = .ok out) :
    (isC = false →
       ∃ lenO, AbstractItemEncoder.encodeLength supportIndef substrate.length true =
           .ok lenO ∧
         out = AbstractItemEncoder.encodeTag t false ++ lenO ++ substrate ∧
         lenO ≠ [128]) ∧
    (AbstractItemEncoder.encodeLength supportIndef substrate.length
        (if isC = false then true else defMode) = .ok [128] →
      isC = true ∧
        out = AbstractItemEncoder.encodeTag t true ++ [128] ++ substrate ++ [0, 0]) := by
  constructor
  · intro hisC
    subst hisC
    simp only [encodeItem, AbstractItemEncoder.encode, ht] at hout
    rw [if_pos (by trivial)] at hout
    rw [if_pos (Or.inl rfl)] at hout
    cases hL : AbstractItemEncoder.encodeLength supportIndef substrate.length true with
    | error e =>
      rw [hL] at hout
      simp at hout
    | ok lenO =>
      rw [hL] at hout
      simp at hout
      refine ⟨lenO, rfl, ?_, ?_⟩
      · simpa using hout.symm
      · intro hcon
        subst hcon
        obtain ⟨hd, _⟩ := encodeLength_ok_indef _ _ _ hL
        simp at hd
  · intro hL128
    by_cases hisC : isC = false
    · rw [if_pos hisC] at hL128
      obtain ⟨hd, _⟩ := encodeLength_ok_indef _ _ _ hL128
      simp at hd
    · have hisC2 : isC = true := by
        cases isC
        · exact absurd rfl hisC
        · rfl
      subst hisC2
      rw [if_neg (by simp)] at hL128
      obtain ⟨hd, hs⟩ := encodeLength_ok_indef _ _ _ hL128
      subst hd
      subst hs
      refine ⟨rfl, ?_⟩
      simp only [encodeItem, AbstractItemEncoder.encode, ht] at hout
      rw [if_neg (by simp)] at hout
      rw [hL128] at hout
      rw [if_neg (by simp)] at hout
      rw [encodeEndOfOctetsFun_eq] at hout
      simp at hout
      simpa using hout.symm

/-- Witness for C4: a constructed frame encoded in indefinite mode at a
concrete input carries the 0x80 length octet and exactly one EOC suffix. -/
theorem encode_frame_invariants_witness :
    (true : Bool) = true ∧
      [48, 128, 5, 0, 0] =
        AbstractItemEncoder.encodeTag ⟨0, 32, 16⟩ true ++ [128] ++ [5] ++ [0, 0] :=
  (encode_frame_invariants true [⟨0, 32, 16⟩] ⟨0, 32, 16⟩ [5] true false
    [48, 128, 5, 0, 0] rfl (by rfl)).2 (by rfl)

/-! ### Claim C5 -/

/-- The tag-set fallback of Encoder.__call__ (encoder.py lines 329-336):
look up the full tag set in the tag map, then the base tag set, then fail. -/
def tagSetFallback {C : Type} (tagMap : List Tag → Option C)
    (tagSet baseTagSet : List Tag) : Except EncError C :=
  match tagMap tagSet with
  | some c => .ok c
  | none =>
    match tagMap baseTagSet with
    | some c => .ok c
    | none => .error .noEncoder

/-- The concrete-codec selection of Encoder.__call__ (encoder.py lines
322-336): explicit-tag wrapper when the tag set is longer than 1,
otherwise the type-id map (when the value's typeId is not None and
present there), otherwise the tag-set fallback.  The Python dictionaries
become Option-valued functions; the explicitly-tagged item encoder is the
distinguished codec explicitTagged. -/
def Encoder.selectConcreteEncoder {C : Type} (typeMap : Nat → Option C)
    (tagMap : List Tag → Option C) (explicitTagged : C)
    (tagSet : List Tag) (typeId : Option Nat) (baseTagSet : List Tag) :
    Except EncError C :=
  if tagSet.length > 1 then .ok explicitTagged
  else
    match typeId with
    | some tid =>
      match typeMap tid with
      | some c => .ok c
      | none => tagSetFallback tagMap tagSet baseTagSet
    | none => tagSetFallback tagMap tagSet baseTagSet

/-- C5: the concrete codec is selected in this exact order: explicit-tag
wrapper when the tag set has length > 1; otherwise the type-id map entry
when the value's type id is present there; otherwise the tag-set map entry
for the full tag set; otherwise the tag-set map entry for the base tag
set; otherwise the call fails with the no-encoder error. -/
theorem encoder_selection_order {C : Type} (typeMap : Nat → Option C)
    (tagMap : List Tag → Option C) (explicitTagged : C)
    (ts : List Tag) (tid : Option Nat) (bts : List Tag) :
    (ts.length > 1 →
      Encoder.selectConcreteEncoder typeMap tagMap explicitTagged ts tid bts =
        .ok explicitTagged) ∧
    (ts.length ≤ 1 → ∀ i c, tid = some i → typeMap i = some c →
      Encoder.selectConcreteEncoder typeMap tagMap explicitTagged ts tid bts = .ok c) ∧
    (ts.length ≤ 1 → (∀ i, tid = some i → typeMap i = none) → ∀ c, tagMap ts = some c →
      Encoder.selectConcreteEncoder typeMap tagMap explicitTagged ts tid bts = .ok c) ∧
    (ts.length ≤ 1 → (∀ i, tid = some i → typeMap i = none) → tagMap ts = none →
      ∀ c, tagMap bts = some c →
      Encoder.selectConcreteEncoder typeMap tagMap explicitTagged ts tid bts = .ok c) ∧
    (ts.length ≤ 1 → (∀ i, tid = some i → typeMap i = none) → tagMap ts = none →
      tagMap bts = none →
      Encoder.selectConcreteEncoder typeMap tagMap explicitTagged ts tid bts =
        .error .noEncoder) := by
  refine ⟨?_, ?_, ?_, ?_, ?_⟩
  · intro hlen
    simp only [Encoder.selectConcreteEncoder, if_pos hlen]
  · intro hlen i c htid hmap
    subst htid
    have hngt : ¬(ts.length > 1) := by omega
    simp only [Encoder.selectConcreteEncoder, if_neg hngt, hmap]
  · intro hlen htid c hts
    have hngt : ¬(ts.length > 1) := by omega
    cases tid with
    | none => simp only [Encoder.selectConcreteEncoder, if_neg hngt, tagSetFallback, hts]
    | some i =>
      have hni := htid i rfl
      simp only [Encoder.selectConcreteEncoder, if_neg hngt, hni, tagSetFallback, hts]
  · intro hlen htid hts c hbts
    have hngt : ¬(ts.length > 1) := by omega
    cases tid with
    | none =>
      simp only [Encoder.selectConcreteEncoder, if_neg hngt, tagSetFallback, hts, hbts]
    | some i =>
      have hni := htid i rfl
      simp only [Encoder.selectConcreteEncoder, if_neg hngt, hni, tagSetFallback, hts, hbts]
  · intro hlen htid hts hbts
    have hngt : ¬(ts.length > 1) := by omega
    cases tid with
    | none =>
      simp only [Encoder.selectConcreteEncoder, if_neg hngt, tagSetFallback, hts, hbts]
    | some i =>
      have hni := htid i rfl
      simp only [Encoder.selectConcreteEncoder, if_neg hngt, hni, tagSetFallback, hts, hbts]

/-- Witness for C5: with a type map that misses the type id and a tag map
holding the full tag set, the full-tag-set entry is chosen. -/
theorem encoder_selection_order_witness :
    Encoder.selectConcreteEncoder (fun _ => (none : Option Nat))
      (fun ts2 => if ts2 = [⟨0, 0, 2⟩] then some 7 else none) 99
      [⟨0, 0, 2⟩] (some 5) [⟨0, 0, 2⟩] = .ok 7 :=
  (encoder_selection_order (fun _ => (none : Option Nat))
      (fun ts2 => if ts2 = [⟨0, 0, 2⟩] then some 7 else none) 99
      [⟨0, 0, 2⟩] (some 5) [⟨0, 0, 2⟩]).2.2.1 (by simp)
    (fun _ _ => rfl) 7 (by simp)

/-! ### Claim C6 -/

/-- The descending component loop of SequenceEncoder.encodeValue
(encoder.py lines 241-251): idx counts down from len(value); absent
(None) components are skipped, as are components whose declared default
exists and equals them; otherwise the component's encoding is prepended
to the substrate.  encodeFun abstracts the recursive dispatcher call
(defMode and maxChunkSize are passed through unchanged and are absorbed
into it); getDefault is the value's getDefaultComponentByPosition. -/
def seqComponentLoop {V : Type} [DecidableEq V] (encodeFun : V → List Nat)
    (components : List (Option V)) (getDefault : Nat → Option V) :
    Nat → List Nat → List Nat
  | 0, substrate => substrate
  | Nat.succ idx, substrate =>
    match components.getD idx none with
    | none => seqComponentLoop encodeFun components getDefault idx substrate
    | some c =>
      if getDefault idx = some c then
        seqComponentLoop encodeFun components getDefault idx substrate
      else
        seqComponentLoop encodeFun components getDefault idx (encodeFun c ++ substrate)

/-- SequenceEncoder.encodeValue (encoder.py lines 238-252): invoke the
value's setDefaultComponents and verifySizeSpec hooks (methods of the
external abstract value object, passed here as parameters), then walk the
components from the last index down to 0.  verifySizeSpec raising on
failure is modelled as a Boolean check producing an error. -/
def SequenceEncoder.encodeValue {V : Type} [DecidableEq V] (encodeFun : V → List Nat)
    (setDefaultComponents : List (Option V) → List (Option V))
    (verifySizeSpec : List (Option V) → Bool)
    (getDefault : Nat → Option V) (components : List (Option V)) :
    Except EncError (List Nat × Bool) :=
  let components2 := setDefaultComponents components
  if verifySizeSpec components2 = false then .error .sizeSpecViolation
  else .ok (seqComponentLoop encodeFun components2 getDefault components2.length [], true)

/-- The content the claim describes: in positional order, the encodings of
exactly those components that are present and differ from their declared
default; absent and default-equal components contribute nothing. -/
def seqSpecContent {V : Type} [DecidableEq V] (encodeFun : V → List Nat)
    (components : List (Option V)) (getDefault : Nat → Option V) : List Nat :=
  ((List.range components.length).map (fun i =>
    match components.getD i none with
    | none => []
    | some c => if getDefault i = some c then [] else encodeFun c)).join

lemma seqComponentLoop_eq {V : Type} [DecidableEq V] (encodeFun : V → List Nat)
    (components : List (Option V)) (getDefault : Nat → Option V) :
    ∀ (n : Nat) (acc : List Nat),
      seqComponentLoop encodeFun components getDefault n acc =
      ((List.range n).map (fun i =>
        match components.getD i none with
        | none => []
        | some c => if getDefault i = some c then [] else encodeFun c)).join ++ acc := by
  intro n
  induction n with
  | zero => intro acc; simp [seqComponentLoop]
  | succ m ih =>
    intro acc
    rw [List.range_succ]
    simp only [List.map_append, List.join_append, List.map_cons, List.map_nil,
      List.join_cons, List.join_nil]
    cases hc : components.getD m none with
    | none =>
      simp only [seqComponentLoop, hc]
      rw [ih acc]
      simp
    | some c =>
      by_cases hd : getDefault m = some c
      · simp only [seqComponentLoop, hc, if_pos hd]
        rw [ih acc]
        simp
      · simp only [seqComponentLoop, hc, if_neg hd]
        rw [ih (encodeFun c ++ acc)]
        simp

/-- C6: SequenceEncoder.encodeValue first invokes the value's
set-default-components and verify-size-spec hooks, then returns, as
constructed content (flag true), the concatenation in positional order of
the encodings of exactly those components that are present and that do
not equal their declared default; absent components and components equal
to their default contribute no octets.  When the verify-size-spec hook
fails, the call fails. -/
theorem sequenceEncoder_encodeValue_spec {V : Type} [DecidableEq V]
    (encodeFun : V → List Nat)
    (setDefaultComponents : List (Option V) → List (Option V))
    (verifySizeSpec : List (Option V) → Bool)
    (getDefault : Nat → Option V) (components : List (Option V)) :
    (verifySizeSpec (setDefaultComponents components) = true →
      SequenceEncoder.encodeValue encodeFun setDefaultComponents verifySizeSpec
          getDefault components =
        .ok (seqSpecContent encodeFun (setDefaultComponents components) getDefault,
          true)) ∧
    (verifySizeSpec (setDefaultComponents components) = false →
      SequenceEncoder.encodeValue encodeFun setDefaultComponents verifySizeSpec
          getDefault components = .error .sizeSpecViolation) := by
  constructor
  · intro hv
    simp only [SequenceEncoder.encodeValue]
    rw [if_neg (by simp [hv])]
    rw [seqComponentLoop_eq]
    simp [seqSpecContent]
  · intro hv
    simp only [SequenceEncoder.encodeValue]
    rw [if_pos hv]

/-- Witness for C6: a three-component sequence whose first component
equals its default (skipped), second is absent (skipped) and third is
present (emitted). -/
theorem sequenceEncoder_encodeValue_spec_witness :
    SequenceEncoder.encodeValue (fun v : Nat => [v]) id (fun _ => true)
      (fun i => if i = 0 then some 1 else none) [some 1, none, some 2] =
      .ok ([2], true) := by
  have h := (sequenceEncoder_encodeValue_spec (fun v : Nat => [v]) id (fun _ => true)
      (fun i => if i = 0 then some 1 else none) [some 1, none, some 2]).1 rfl
  rw [h]
  rfl

/-! ### Claim C10 -/

/-- Modelled from the spec: the value's set_default_components hook (it
lives in the pyasn1 type layer, which is not part of the encoder source;
spec section 4.5 requires the encoder to invoke it, section 6 lists it in
the value-object contract, and the spec's DEFAULT-component handling
says absence fills in the declared default).  It sets every absent
component that has a declared default to that default, in place, leaving
all other components unchanged; the index argument tracks the position of
the list head. -/
def setDefaultComponentsModel {V : Type} (getDefault : Nat → Option V) :
    List (Option V) → Nat → List (Option V)
  | [], _ => []
  | none :: rest, i => getDefault i :: setDefaultComponentsModel getDefault rest (i + 1)
  | some c :: rest, i => some c :: setDefaultComponentsModel getDefault rest (i + 1)

/-- SequenceEncoder.encodeValue in state-passing form: the sequence
encoder invokes the mutating set_default_components hook on the value
(encoder.py line 239), so the component list after the call is returned
alongside the octets, making the mutation observable in the embedding. -/
def SequenceEncoder.encodeValueWithState {V : Type} [DecidableEq V]
    (encodeFun : V → List Nat) (verifySizeSpec : List (Option V) → Bool)
    (getDefault : Nat → Option V) (components : List (Option V)) :
    Except EncError ((List Nat × Bool) × List (Option V)) :=
  let components2 := setDefaultComponentsModel getDefault components 0
  if verifySizeSpec components2 = false then .error .sizeSpecViolation
  else .ok ((seqComponentLoop encodeFun components2 getDefault components2.length [], true),
    components2)

lemma setDefaultComponentsModel_idem {V : Type} (getDefault : Nat → Option V)
    (components : List (Option V)) :
    ∀ i : Nat, setDefaultComponentsModel getDefault
        (setDefaultComponentsModel getDefault components i) i =
      setDefaultComponentsModel getDefault components i := by
  induction components with
  | nil => intro i; rfl
  | cons hd rest ih =>
    intro i
    cases hd with
    | none =>
      simp only [setDefaultComponentsModel]
      cases hg : getDefault i with
      | none => simp only [setDefaultComponentsModel, hg, ih]
      | some d => simp only [setDefaultComponentsModel, ih]
    | some c => simp only [setDefaultComponentsModel, ih]

/-- C10 counterexample: encoding a SEQUENCE with one absent component
whose declared default is 5 observably mutates the value: its component
list changes from [none] to [some 5], refuting the claim that the value
(including a SEQUENCE value's components) is unchanged after the call. -/
theorem encode_mutates_value_counterexample :
    SequenceEncoder.encodeValueWithState (fun v : Nat => [v]) (fun _ => true)
      (fun _ => some 5) [none] = .ok (([], true), [some 5]) ∧
    ([some 5] : List (Option Nat)) ≠ [none] := by
  constructor
  · rfl
  · decide

/-- C10 (amended): encoding performs no mutation and is deterministic
except through the set-default-components hook: the value state after the
call is exactly the hook's result (absent defaulted components filled
in), and a second call on the already-encoded value returns the very same
octets and leaves the value unchanged. -/
theorem encode_pure_up_to_hook {V : Type} [DecidableEq V]
    (encodeFun : V → List Nat) (verifySizeSpec : List (Option V) → Bool)
    (getDefault : Nat → Option V) (components : List (Option V))
    (result : List Nat × Bool) (state1 : List (Option V))
    (h : SequenceEncoder.encodeValueWithState encodeFun verifySizeSpec getDefault
      components = .ok (result, state1)) :
    state1 = setDefaultComponentsModel getDefault components 0 ∧
    SequenceEncoder.encodeValueWithState encodeFun verifySizeSpec getDefault state1 =
      .ok (result, state1) := by
  simp only [SequenceEncoder.encodeValueWithState] at h
  by_cases hv : verifySizeSpec (setDefaultComponentsModel getDefault components 0) = false
  · rw [if_pos hv] at h
    exact absurd h (by simp)
  · rw [if_neg hv] at h
    have h2 := Except.ok.inj h
    have hres : result = (seqComponentLoop encodeFun
        (setDefaultComponentsModel getDefault components 0) getDefault
        (setDefaultComponentsModel getDefault components 0).length [], true) :=
      (congrArg Prod.fst h2).symm
    have hstate : state1 = setDefaultComponentsModel getDefault components 0 :=
      (congrArg Prod.snd h2).symm
    refine ⟨hstate, ?_⟩
    simp only [SequenceEncoder.encodeValueWithState]
    rw [hstate, setDefaultComponentsModel_idem getDefault components 0]
    rw [if_neg hv, hres]

/-- Witness for C10 (amended): a second encoding of the mutated value from
the counterexample scenario returns the same octets and the same state. -/
theorem encode_pure_up_to_hook_witness :
    ([some 5] : List (Option Nat)) = setDefaultComponentsModel (fun _ => some 5) [none] 0 ∧
    SequenceEncoder.encodeValueWithState (fun v : Nat => [v]) (fun _ => true)
      (fun _ => some 5) [some 5] = .ok (([], true), [some 5]) :=
  encode_pure_up_to_hook (fun v : Nat => [v]) (fun _ => true) (fun _ => some 5)
    [none] ([], true) [some 5] (by rfl)

/-! ### Claim C9 -/

/-- The per-sub-identifier loop of ObjectIdentifierEncoder.encodeValue
(encoder.py lines 169-187): for each remaining sub-identifier, append its
single octet when 0 <= subid < 128 (the common case), raise on a negative
sub-identifier or one above 2^32 - 1, and otherwise append its base-128
big-endian octets with continuation bits. -/
def oidCycleLoop : List Int → List Nat → Except EncError (List Nat)
  | [], octets => .ok octets
  | subid :: rest, octets =>
    if subid > -1 ∧ subid < 128 then
      oidCycleLoop rest (octets ++ [subid.toNat &&& 127])
    else if subid < 0 ∨ subid > 4294967295 then
      .error .subIdOverflow
    else
      oidCycleLoop rest (octets ++ base128Loop (subid.toNat >>> 7) [subid.toNat &&& 127])

/-- ObjectIdentifierEncoder.encodeValue (encoder.py lines 149-188) on the
tuple of sub-identifiers returned by value.asTuple(); sub-identifiers are
Int since Python values can be negative.  The precomputed prefix table
for 1.3.6.1.2 and 1.3.6.1.4 (lines 145-153) is kept; otherwise the first
two sub-identifiers are combined as 40*first + second, which must fit in
one octet (lines 155-167). -/
def ObjectIdentifierEncoder.encodeValue (oid : List Int) : Except EncError (List Nat) :=
  if oid.take 5 = [1, 3, 6, 1, 2] then
    oidCycleLoop (oid.drop 5) [43, 6, 1, 2]
  else if oid.take 5 = [1, 3, 6, 1, 4] then
    oidCycleLoop (oid.drop 5) [43, 6, 1, 4]
  else if oid.length < 2 then .error .shortOID
  else
    let subid := oid.headI * 40 + (oid.drop 1).headI
    if subid < 0 ∨ subid > 255 then .error .initialSubIdOverflow
    else oidCycleLoop (oid.drop 2) [subid.toNat]

/-- Octets of one later sub-identifier: base-128 big-endian with the high
bit set on all continuation octets (single octet for subid < 128). -/
def oidSubidOctets (subid : Nat) : List Nat := base128Loop (subid >>> 7) [subid &&& 127]

lemma oidSubidOctets_small {s : Nat} (h : s < 128) : oidSubidOctets s = [s] := by
  have hz : s >>> 7 = 0 := by
    rw [shiftRight_7_eq_div]
    omega
  have ha : s &&& 127 = s := by
    rw [and_127_eq_mod]
    omega
  rw [oidSubidOctets, hz, ha, base128Loop]
  simp

lemma oidCycleLoop_ok (rest : List Int) :
    ∀ octets, (∀ s ∈ rest, 0 ≤ s ∧ s ≤ 4294967295) →
      oidCycleLoop rest octets =
        .ok (octets ++ (rest.map (fun s => oidSubidOctets s.toNat)).join) := by
  induction rest with
  | nil =>
    intro octets h
    simp [oidCycleLoop]
  | cons s rest2 ih =>
    intro octets h
    have hs := h s (by simp)
    have hrest : ∀ x ∈ rest2, 0 ≤ x ∧ x ≤ 4294967295 := fun x hx => h x (by simp [hx])
    by_cases hsmall : s > -1 ∧ s < 128
    · simp only [oidCycleLoop, if_pos hsmall]
      rw [ih _ hrest]
      have hoct : oidSubidOctets s.toNat = [s.toNat &&& 127] := by
        rw [oidSubidOctets_small (by omega)]
        rw [and_127_eq_mod]
        congr 1
        omega
      simp [hoct, List.append_assoc]
    · have hbad : ¬(s < 0 ∨ s > 4294967295) := by omega
      simp only [oidCycleLoop, if_neg hsmall, if_neg hbad]
      rw [ih _ hrest]
      simp [oidSubidOctets, List.append_assoc]

lemma oidCycleLoop_error (rest : List Int) :
    ∀ octets, (∃ s ∈ rest, s < 0 ∨ s > 4294967295) →
      oidCycleLoop rest octets = .error .subIdOverflow := by
  induction rest with
  | nil =>
    intro octets h
    simp at h
  | cons s rest2 ih =>
    intro octets h
    by_cases hfirst : s < 0 ∨ s > 4294967295
    · have hns : ¬(s > -1 ∧ s < 128) := by omega
      simp only [oidCycleLoop, if_neg hns, if_pos hfirst]
    · have htail : ∃ x ∈ rest2, x < 0 ∨ x > 4294967295 := by
        rcases h with ⟨x, hx, hxb⟩
        rcases List.mem_cons.mp hx with rfl | hmem
        · exact absurd hxb hfirst
        · exact ⟨x, hmem, hxb⟩
      by_cases hsmall : s > -1 ∧ s < 128
      · simp only [oidCycleLoop, if_pos hsmall]
        exact ih _ htail
      · simp only [oidCycleLoop, if_neg hsmall, if_neg hfirst]
        exact ih _ htail

lemma oid_encode_ok (a b : Int) (rest : List Int)
    (hcombo1 : 0 ≤ 40 * a + b) (hcombo2 : 40 * a + b ≤ 255)
    (hrest : ∀ s ∈ rest, 0 ≤ s ∧ s ≤ 4294967295) :
    ObjectIdentifierEncoder.encodeValue (a :: b :: rest) =
      .ok ((40 * a + b).toNat :: (rest.map (fun s => oidSubidOctets s.toNat)).join) := by
  have htake : (a :: b :: rest).take 5 = a :: b :: rest.take 3 := rfl
  have e6 : oidSubidOctets ((6 : Int).toNat) = [(6 : Int).toNat] :=
    oidSubidOctets_small (by norm_num)
  have e1 : oidSubidOctets ((1 : Int).toNat) = [(1 : Int).toNat] :=
    oidSubidOctets_small (by norm_num)
  have e2 : oidSubidOctets ((2 : Int).toNat) = [(2 : Int).toNat] :=
    oidSubidOctets_small (by norm_num)
  have e4 : oidSubidOctets ((4 : Int).toNat) = [(4 : Int).toNat] :=
    oidSubidOctets_small (by norm_num)
  by_cases h12 : (a :: b :: rest).take 5 = [1, 3, 6, 1, 2]
  · rw [htake] at h12
    simp only [List.cons.injEq] at h12
    obtain ⟨rfl, rfl, htk⟩ := h12
    have hrest3 := List.take_append_drop 3 rest
    rw [htk] at hrest3
    obtain ⟨d, rfl⟩ : ∃ d, rest = [6, 1, 2] ++ d := ⟨rest.drop 3, hrest3.symm⟩
    have hcond : ((1 : Int) :: 3 :: ([6, 1, 2] ++ d)).take 5 = [1, 3, 6, 1, 2] := rfl
    simp only [ObjectIdentifierEncoder.encodeValue, if_pos hcond]
    have hdrop : ((1 : Int) :: 3 :: ([6, 1, 2] ++ d)).drop 5 = d := rfl
    rw [hdrop]
    rw [oidCycleLoop_ok d [43, 6, 1, 2]
      (fun s hs => hrest s (by simp [hs]))]
    simp only [List.cons_append, List.nil_append, List.map_cons, List.join_cons, e6, e1, e2]
    norm_num
    omega
  · by_cases h14 : (a :: b :: rest).take 5 = [1, 3, 6, 1, 4]
    · rw [htake] at h14
      simp only [List.cons.injEq] at h14
      obtain ⟨rfl, rfl, htk⟩ := h14
      have hrest3 := List.take_append_drop 3 rest
      rw [htk] at hrest3
      obtain ⟨d, rfl⟩ : ∃ d, rest = [6, 1, 4] ++ d := ⟨rest.drop 3, hrest3.symm⟩
      have hcond : ((1 : Int) :: 3 :: ([6, 1, 4] ++ d)).take 5 = [1, 3, 6, 1, 4] := rfl
      have hcond12 : ¬(((1 : Int) :: 3 :: ([6, 1, 4] ++ d)).take 5 = [1, 3, 6, 1, 2]) := by
        intro hcon
        simp at hcon
      simp only [ObjectIdentifierEncoder.encodeValue, if_neg hcond12, if_pos hcond]
      have hdrop : ((1 : Int) :: 3 :: ([6, 1, 4] ++ d)).drop 5 = d := rfl
      rw [hdrop]
      rw [oidCycleLoop_ok d [43, 6, 1, 4]
        (fun s hs => hrest s (by simp [hs]))]
      simp only [List.cons_append, List.nil_append, List.map_cons, List.join_cons, e6, e1, e4]
      norm_num
      omega
    · have hlen : ¬((a :: b :: rest).length < 2) := by
        simp only [List.length_cons]
        omega
      have hcombo : ¬((a :: b :: rest).headI * 40 + ((a :: b :: rest).drop 1).headI < 0 ∨
          (a :: b :: rest).headI * 40 + ((a :: b :: rest).drop 1).headI > 255) := by
        simp only [List.headI, List.drop_one, List.tail_cons]
        omega
      simp only [ObjectIdentifierEncoder.encodeValue, if_neg h12, if_neg h14, if_neg hlen]
      rw [if_neg hcombo]
      have hdrop : (a :: b :: rest).drop 2 = rest := rfl
      rw [hdrop]
      rw [oidCycleLoop_ok rest _ hrest]
      have hab : (a :: b :: rest).headI * 40 + ((a :: b :: rest).drop 1).headI =
          40 * a + b := by
        simp only [List.headI, List.drop_one, List.tail_cons]
        ring
      rw [hab]
      simp

/-- C9: ObjectIdentifierEncoder.encodeValue raises an error exactly when
the OID has fewer than two sub-identifiers, or the initial combination
40*first + second does not fit in one octet (outside 0..255), or some
later sub-identifier is negative or exceeds 2^32 - 1; otherwise it
succeeds, emitting 40*first + second as the first content octet followed
by each later sub-identifier in base-128 big-endian form with the high
bit set on all but its last octet. -/
theorem oid_encodeValue_spec (oid : List Int) :
    ((∃ msg, ObjectIdentifierEncoder.encodeValue oid = .error msg) ↔
      (oid.length < 2 ∨
       (40 * oid.headI + (oid.drop 1).headI < 0 ∨
        255 < 40 * oid.headI + (oid.drop 1).headI) ∨
       ∃ s ∈ oid.drop 2, s < 0 ∨ 4294967295 < s)) ∧
    (∀ a b rest, oid = a :: b :: rest →
      0 ≤ 40 * a + b → 40 * a + b ≤ 255 →
      (∀ s ∈ rest, 0 ≤ s ∧ s ≤ 4294967295) →
      ObjectIdentifierEncoder.encodeValue oid =
        .ok ((40 * a + b).toNat ::
          (rest.map (fun s => oidSubidOctets s.toNat)).join)) ∧
    (∀ s : Nat, oidSubidOctets s ≠ [] ∧
      (∀ o ∈ (oidSubidOctets s).dropLast, 128 ≤ o ∧ o < 256) ∧
      (∀ o, (oidSubidOctets s).getLast? = some o → o < 128) ∧
      base128Val (oidSubidOctets s) = s) := by
  refine ⟨?_, ?_, fun s => tagIdTail_spec s⟩
  · constructor
    · rintro ⟨msg, hmsg⟩
      by_contra hrhs
      push_neg at hrhs
      obtain ⟨hlen, ⟨hc1, hc2⟩, hgood⟩ := hrhs
      rcases oid with _ | ⟨a, t⟩
      · simp at hlen
      rcases t with _ | ⟨b, rest⟩
      · simp at hlen
      have hh : (a :: b :: rest : List Int).headI = a := rfl
      have hh2 : ((a :: b :: rest : List Int).drop 1).headI = b := rfl
      have hh3 : (a :: b :: rest : List Int).drop 2 = rest := rfl
      rw [hh, hh2] at hc1 hc2
      rw [hh3] at hgood
      have hok := oid_encode_ok a b rest hc1 hc2 hgood
      rw [hok] at hmsg
      exact Except.noConfusion hmsg
    · intro hrhs
      by_cases hlen : oid.length < 2
      · have h12 : ¬(oid.take 5 = [1, 3, 6, 1, 2]) := by
          intro hcon
          have hl := congrArg List.length hcon
          simp [List.length_take] at hl
          omega
        have h14 : ¬(oid.take 5 = [1, 3, 6, 1, 4]) := by
          intro hcon
          have hl := congrArg List.length hcon
          simp [List.length_take] at hl
          omega
        exact ⟨.shortOID, by
          simp only [ObjectIdentifierEncoder.encodeValue, if_neg h12, if_neg h14,
            if_pos hlen]⟩
      · rcases oid with _ | ⟨a, t⟩
        · exact absurd (by simp) hlen
        rcases t with _ | ⟨b, rest⟩
        · exact absurd (by simp) hlen
        have hh : (a :: b :: rest : List Int).headI = a := rfl
        have hh2 : ((a :: b :: rest : List Int).drop 1).headI = b := rfl
        have hh3 : (a :: b :: rest : List Int).drop 2 = rest := rfl
        have htake5 : (a :: b :: rest).take 5 = a :: b :: rest.take 3 := rfl
        rcases hrhs with hl | hc | hbad
        · exact absurd hl hlen
        · rw [hh, hh2] at hc
          have h12 : ¬((a :: b :: rest).take 5 = [1, 3, 6, 1, 2]) := by
            intro hcon
            rw [htake5] at hcon
            simp only [List.cons.injEq] at hcon
            obtain ⟨rfl, rfl, _⟩ := hcon
            omega
          have h14 : ¬((a :: b :: rest).take 5 = [1, 3, 6, 1, 4]) := by
            intro hcon
            rw [htake5] at hcon
            simp only [List.cons.injEq] at hcon
            obtain ⟨rfl, rfl, _⟩ := hcon
            omega
          refine ⟨.initialSubIdOverflow, ?_⟩
          simp only [ObjectIdentifierEncoder.encodeValue, if_neg h12, if_neg h14,
            if_neg hlen]
          rw [if_pos (by rw [hh, hh2]; omega)]
        · rw [hh3] at hbad
          by_cases h12 : (a :: b :: rest).take 5 = [1, 3, 6, 1, 2]
          · rw [htake5] at h12
            simp only [List.cons.injEq] at h12
            obtain ⟨rfl, rfl, htk⟩ := h12
            have hrest3 := List.take_append_drop 3 rest
            rw [htk] at hrest3
            obtain ⟨d, rfl⟩ : ∃ d, rest = [6, 1, 2] ++ d := ⟨rest.drop 3, hrest3.symm⟩
            rcases hbad with ⟨s, hs, hsbad⟩
            rcases List.mem_append.mp hs with hmem | hmem
            · exfalso
              simp at hmem
              rcases hmem with rfl | rfl | rfl <;> omega
            · refine ⟨.subIdOverflow, ?_⟩
              have hcond : ((1 : Int) :: 3 :: ([6, 1, 2] ++ d)).take 5 =
                  [1, 3, 6, 1, 2] := rfl
              simp only [ObjectIdentifierEncoder.encodeValue, if_pos hcond]
              have hdrop : ((1 : Int) :: 3 :: ([6, 1, 2] ++ d)).drop 5 = d := rfl
              rw [hdrop]
              exact oidCycleLoop_error d _ ⟨s, hmem, hsbad⟩
          · by_cases h14 : (a :: b :: rest).take 5 = [1, 3, 6, 1, 4]
            · rw [htake5] at h14
              simp only [List.cons.injEq] at h14
              obtain ⟨rfl, rfl, htk⟩ := h14
              have hrest3 := List.take_append_drop 3 rest
              rw [htk] at hrest3
              obtain ⟨d, rfl⟩ : ∃ d, rest = [6, 1, 4] ++ d := ⟨rest.drop 3, hrest3.symm⟩
              rcases hbad with ⟨s, hs, hsbad⟩
              rcases List.mem_append.mp hs with hmem | hmem
              · exfalso
                simp at hmem
                rcases hmem with rfl | rfl | rfl <;> omega
              · refine ⟨.subIdOverflow, ?_⟩
                have hcond : ((1 : Int) :: 3 :: ([6, 1, 4] ++ d)).take 5 =
                    [1, 3, 6, 1, 4] := rfl
                have hcond12 : ¬(((1 : Int) :: 3 :: ([6, 1, 4] ++ d)).take 5 =
                    [1, 3, 6, 1, 2]) := by
                  intro hcon
                  simp at hcon
                simp only [ObjectIdentifierEncoder.encodeValue, if_neg hcond12,
                  if_pos hcond]
                have hdrop : ((1 : Int) :: 3 :: ([6, 1, 4] ++ d)).drop 5 = d := rfl
                rw [hdrop]
                exact oidCycleLoop_error d _ ⟨s, hmem, hsbad⟩
            · by_cases hcombo : (a :: b :: rest).headI * 40 +
                  ((a :: b :: rest).drop 1).headI < 0 ∨
                  (a :: b :: rest).headI * 40 + ((a :: b :: rest).drop 1).headI > 255
              · exact ⟨.initialSubIdOverflow, by
                  simp only [ObjectIdentifierEncoder.encodeValue, if_neg h12, if_neg h14,
                    if_neg hlen]
                  rw [if_pos hcombo]⟩
              · refine ⟨.subIdOverflow, ?_⟩
                simp only [ObjectIdentifierEncoder.encodeValue, if_neg h12, if_neg h14,
                  if_neg hlen]
                rw [if_neg hcombo, hh3]
                exact oidCycleLoop_error rest _ hbad
  · intro a b rest hoid h1 h2 h3
    subst hoid
    exact oid_encode_ok a b rest h1 h2 h3

/-- Witness for C9: the OID 1.2.300 encodes as 42 (= 40*1+2) followed by
the two-octet base-128 form of 300. -/
theorem oid_encodeValue_spec_witness :
    ObjectIdentifierEncoder.encodeValue [1, 2, 300] =
      .ok (((40 * 1 + 2 : Int)).toNat ::
        (([300] : List Int).map (fun s => oidSubidOctets s.toNat)).join) :=
  (oid_encodeValue_spec [1, 2, 300]).2.1 1 2 [300] rfl (by norm_num) (by norm_num)
    (by intro s hs; simp at hs; subst hs; norm_num)

/-! ### Claims C7 and C8 -/

/-- The mantissa-normalization loop of RealEncoder.encodeValue
(encoder.py lines 209-211): shift out trailing zero bits, incrementing
the exponent.  The preceding drop-floating-point loop (lines 206-208) is
the identity for the integral mantissas modelled here.  Python would loop
forever on a zero mantissa, but encodeValue only reaches this loop after
the zero check of line 197, so the m = 0 guard here is unreachable at the
call site. -/
def normLoop (m : Nat) (e : Int) : Nat × Int :=
  if m = 0 then (0, e)
  else if m % 2 = 0 then normLoop (m / 2) (e + 1)
  else (m, e)
termination_by m
decreasing_by omega

/-- The exponent-octet loop of RealEncoder.encodeValue (encoder.py
lines 213-215): prepend e & 0xff and arithmetically shift e right by 8
until e is zero.  A negative Python integer never reaches zero under
arithmetic right shifts (-1 >> 8 == -1), so the loop is given fuel;
none models non-termination of the source. -/
def realExpLoop : Nat → Int → List Nat → Option (List Nat)
  | 0, e, eo => if e = 0 then some eo else none
  | fuel + 1, e, eo =>
    if e = 0 then some eo
    else realExpLoop fuel (e / 256) ((e % 256).toNat :: eo)

/-- The decimal branch of RealEncoder.encodeValue (encoder.py line 200):
octets of the Python %-formatted string of line 200, namely the octet
0x03, the decimal digits of m, the letter E (octet 69), a plus sign
(octet 43) exactly when e is zero, and the decimal digits of e. -/
def realDecimalOctets (m e : Int) : List Nat :=
  3 :: ((toString m).data.map Char.toNat ++
    (69 :: ((if e = 0 then [43] else []) ++ (toString e).data.map Char.toNat)))

/-- RealEncoder.encodeValue (encoder.py lines 191-235) on a finite Real
triple (m, b, e) with integral mantissa (the infinity branches of lines
192-195 concern the distinguished infinity objects, not the triple
path).  The fuel only bounds the exponent-octet loop; a none result
means the Python source does not terminate on this input. -/
def RealEncoder.encodeValue (fuel : Nat) (m b e : Int) :
    Option (Except EncError (List Nat × Bool)) :=
  if m = 0 then some (.ok ([], false))
  else if b = 10 then some (.ok (realDecimalOctets m e, false))
  else if b = 2 then
    let fo : Nat := if m < 0 then 128 ||| 64 else 128
    let m2 : Nat := if m < 0 then (-m).toNat else m.toNat
    let ne := normLoop m2 e
    match realExpLoop fuel ne.2 [] with
    | none => none
    | some eo =>
      let n := eo.length
      if n > 255 then some (.error .realExponentOverflow)
      else
        let foeo : Nat × List Nat :=
          if n = 1 then (fo, eo)
          else if n = 2 then (fo ||| 1, eo)
          else if n = 3 then (fo ||| 2, eo)
          else (fo ||| 3, (n / 255 + 1) :: eo)
        let po := lenOctetsLoop ne.1 []
        some (.ok (foeo.1 :: (foeo.2 ++ po), false))
  else some (.error .prohibitedRealBase)

lemma realExpLoop_neg : ∀ (fuel : Nat) (e : Int), e < 0 →
    ∀ acc, realExpLoop fuel e acc = none := by
  intro fuel
  induction fuel with
  | zero =>
    intro e he acc
    simp only [realExpLoop]
    rw [if_neg (by omega)]
  | succ f ih =>
    intro e he acc
    simp only [realExpLoop]
    rw [if_neg (by omega)]
    exact ih (e / 256) (by omega) _

/-- C7 refutation: the exponent loop of RealEncoder.encodeValue never
terminates on a negative exponent (Python's e >>= 8 keeps a negative e
negative forever), so encoding the base-2 Real (3, 2, -1) runs out of
any amount of fuel: the source loops forever on it. -/
theorem realEncoder_encodeValue_negative_exponent_diverges :
    ∀ fuel : Nat, RealEncoder.encodeValue fuel 3 2 (-1) = none := by
  intro fuel
  have hnorm : normLoop 3 (-1) = (3, -1) := by simp [normLoop]
  have ht3 : Int.toNat 3 = 3 := rfl
  simp only [RealEncoder.encodeValue]
  norm_num [ht3, hnorm]
  rw [realExpLoop_neg fuel (-1) (by norm_num)]

/-- C8 refutation: at the base-2 Real (1, 2, 0) (mantissa 1, exponent 0)
the encoder emits content [0x83, 0x01, 0x01]: the leading octet has
EE = 11 and is followed by a spurious exponent-length octet, although
the exponent zero occupies at most one octet, for which the claim
requires EE = 00; the octets after the leading octet are the single
length octet 1 and the mantissa octet 1, with no exponent octet at all. -/
theorem realEncoder_zero_exponent_wrong_ee :
    RealEncoder.encodeValue 1 1 2 0 = some (.ok ([131, 1, 1], false)) ∧
    131 &&& 3 = 3 ∧ ¬(131 &&& 3 = 0) := by
  refine ⟨?_, by decide, by decide⟩
  have hnorm : normLoop 1 0 = (1, 0) := by simp [normLoop]
  have hpo : lenOctetsLoop 1 [] = [1] := by simp [lenOctetsLoop]
  have hor : (128 : Nat) ||| 3 = 131 := by decide
  have ht1 : Int.toNat 1 = 1 := rfl
  simp only [RealEncoder.encodeValue]
  norm_num [ht1, hnorm, hpo, hor, realExpLoop]

end PyAsn1
